import Mathlib

/-!
Shallow embedding of pymatgen/entries/compatibility.py: the Correction
classes (PotcarCorrection, GasCorrection, AqueousCorrection, UCorrection)
and the Compatibility aggregator.  Energies are modelled as rationals,
Python dicts as association lists with lookup defaulting to the Python
dict semantics at each use site, and raised exceptions as Except values.
None of the get_correction bodies in the source assigns to any entry
field, so each is translated as a pure function of the entry; the only
mutation in the module, the assignment to entry.correction inside
process_entry, is modelled explicitly by processEntry returning the
post-call entry state.
-/

namespace Compat

/-- Exceptions the Python code can raise while computing a correction:
CompatibilityError with its message, ValueError, IndexError and KeyError. -/
inductive PyErr where
  | compat (msg : String)
  | value
  | index
  | key
  deriving DecidableEq, Repr

/-- True exactly for the CompatibilityError constructor. -/
def PyErr.isCompat : PyErr → Bool
  | .compat _ => true
  | _ => false

/-- A computed entry as read by the corrections: the composition as an
association list from element symbol to amount, the reduced formula, the
uncorrected energy, the current correction field, and the metadata read
from entry.parameters and entry.data.  runType models
parameters.get("run_type") (none when the key is absent), hubbards models
parameters.get("hubbards"), potcarSymbols models parameters["potcar_symbols"]
(none when the key is absent) and oxideType models data["oxide_type"].
structOxideType and structNBonds model the result of the external
oxide_type(structure, 1.05, return_nbonds=True) call, meaningful when
hasStructure is true. -/
structure Entry where
  composition : List (String × ℚ)
  reducedFormula : String
  uncorrectedEnergy : ℚ
  correction : ℚ
  runType : Option String
  hubbards : Option (List (String × ℚ))
  potcarSymbols : Option (List String)
  oxideType : Option String
  hasStructure : Bool
  structOxideType : String
  structNBonds : ℚ
  deriving DecidableEq, Repr

/-- comp[el]: the amount of an element in the composition, 0 when absent. -/
def compAmt (e : Entry) (el : String) : ℚ :=
  (List.lookup el e.composition).getD 0

/-- comp.num_atoms: the total number of atoms in the composition. -/
def numAtoms (e : Entry) : ℚ :=
  (e.composition.map Prod.snd).sum

/-- Split a character list at every space, keeping empty fragments,
mirroring the Python str.split(" ") semantics on the underlying text. -/
def splitCharsOnSpace : List Char → List (List Char)
  | [] => [[]]
  | c :: cs =>
    let r := splitCharsOnSpace cs
    if c = ' ' then [] :: r
    else
      match r with
      | t :: ts => (c :: t) :: ts
      | [] => [[c]]

/-- sym.split(" "): split a string on single spaces, keeping empty parts. -/
def pySplitSpace (s : String) : List String :=
  (splitCharsOnSpace s.data).map (fun l => String.mk l)

/-- The set comprehension in PotcarCorrection.get_correction: take the
second space-separated token of every potcar symbol; none models the
IndexError raised when some symbol has no second token. -/
def extractPsp (syms : List String) : Option (List String) :=
  syms.mapM (fun s => (pySplitSpace s).get? 1)

/-- PotcarCorrection.get_correction.  valid models
set(input_set.potcar_settings.values()). -/
def PotcarCorrection.getCorrection (valid : List String) (e : Entry) :
    Except PyErr ℚ :=
  match e.potcarSymbols with
  | none => .error .value
  | some syms =>
    match extractPsp syms with
    | none => .error .index
    | some psp =>
      if ∀ p ∈ psp, p ∈ valid then .ok 0
      else .error (.compat "Incompatible potcar")

/-- UCorrection.common_peroxides. -/
def UCorrection.commonPeroxides : List String :=
  ["Li2O2", "Na2O2", "K2O2", "Cs2O2", "Rb2O2", "BeO2", "MgO2", "CaO2",
   "SrO2", "BaO2"]

/-- UCorrection.common_superoxides. -/
def UCorrection.commonSuperoxides : List String :=
  ["LiO2", "NaO2", "KO2", "RbO2", "CsO2"]

/-- UCorrection.ozonides. -/
def UCorrection.ozonides : List String :=
  ["LiO3", "NaO3", "KO3", "NaO5"]

/-- The configuration data GasCorrection loads from the yaml file:
the Advanced.CompoundEnergies table and the OxideCorrections table. -/
structure GasConfig where
  cpdEnergies : List (String × ℚ)
  oxideCorrection : List (String × ℚ)
  deriving DecidableEq, Repr

/-- GasCorrection.get_correction.  An unguarded Python dict access on a
missing key is the KeyError value. -/
def GasCorrection.getCorrection (cfg : GasConfig) (correctPeroxide : Bool)
    (e : Entry) : Except PyErr ℚ :=
  match cfg.cpdEnergies.lookup e.reducedFormula with
  | some ce => .ok (ce * numAtoms e - e.uncorrectedEnergy)
  | none =>
    if correctPeroxide then
      if 2 ≤ e.composition.length ∧ "O" ∈ e.composition.map Prod.fst then
        match e.oxideType with
        | some ot =>
          let c1 : ℚ :=
            match cfg.oxideCorrection.lookup ot with
            | some r => r * compAmt e "O"
            | none => 0
          if ot = "hydroxide" then
            match cfg.oxideCorrection.lookup "oxide" with
            | some r => .ok (c1 + r * compAmt e "O")
            | none => .error .key
          else .ok c1
        | none =>
          if e.hasStructure then
            match cfg.oxideCorrection.lookup e.structOxideType with
            | some r => .ok (r * e.structNBonds)
            | none =>
              if e.structOxideType = "hydroxide" then
                match cfg.oxideCorrection.lookup "oxide" with
                | some r => .ok (r * compAmt e "O")
                | none => .error .key
              else .ok 0
          else
            if e.reducedFormula ∈ UCorrection.commonPeroxides then
              match cfg.oxideCorrection.lookup "peroxide" with
              | some r => .ok (r * compAmt e "O")
              | none => .error .key
            else if e.reducedFormula ∈ UCorrection.commonSuperoxides then
              match cfg.oxideCorrection.lookup "superoxide" with
              | some r => .ok (r * compAmt e "O")
              | none => .error .key
            else if e.reducedFormula ∈ UCorrection.ozonides then
              match cfg.oxideCorrection.lookup "ozonide" with
              | some r => .ok (r * compAmt e "O")
              | none => .error .key
            else if "O" ∈ e.composition.map Prod.fst ∧
                1 < e.composition.length then
              match cfg.oxideCorrection.lookup "oxide" with
              | some r => .ok (r * compAmt e "O")
              | none => .error .key
            else .ok 0
      else .ok 0
    else
      match cfg.oxideCorrection.lookup "oxide" with
      | some r => .ok (r * compAmt e "O")
      | none => .error .key

/-- The first part of AqueousCorrection.get_correction: the value of the
local variable correction after the cpd_energies branch, before the
hydration term is considered.  aq models the AqueousCompoundEnergies
table. -/
def aqueousBase (aq : List (String × ℚ)) (e : Entry) : ℚ :=
  match aq.lookup e.reducedFormula with
  | some ref =>
    if e.reducedFormula = "H2" ∨ e.reducedFormula = "H2O" then
      ref * numAtoms e - e.uncorrectedEnergy - e.correction
    else ref * numAtoms e
  | none => 0

/-- AqueousCorrection.get_correction. -/
def AqueousCorrection.getCorrection (aq : List (String × ℚ)) (e : Entry) :
    Except PyErr ℚ :=
  let correction := aqueousBase aq e
  if ¬ e.reducedFormula = "H2O" then
    .ok (correction + (1 / 2 : ℚ) * (246 / 100) *
      min (compAmt e "H" / 2) (compAmt e "O"))
  else .ok correction

/-- The for-loop over comp.elements in UCorrection.get_correction: checks
every element of the composition for a bad U value and accumulates the
per-element corrections.  calcU, ucorr and usett model the calc_u dict,
the ucorr sub-table and the usettings sub-table. -/
def ucorrLoop (calcU ucorr usett : List (String × ℚ)) :
    List (String × ℚ) → ℚ → Except PyErr ℚ
  | [], acc => .ok acc
  | p :: ps, acc =>
    if ¬ (calcU.lookup p.1).getD 0 = (usett.lookup p.1).getD 0 then
      .error (.compat ("Invalid U value on " ++ p.1))
    else
      match ucorr.lookup p.1 with
      | some v => ucorrLoop calcU ucorr usett ps (acc + v * p.2)
      | none => ucorrLoop calcU ucorr usett ps acc

/-- UCorrection.get_correction.  uSettings models self.u_settings and
uCorrections models self.u_corrections; in "GGA" compat mode both are the
empty dict, in "Advanced" mode they come from the input set and the config
file.  X models the electronegativity attribute el.X of the external
periodic table; the sorted builtin is stable, as is insertionSort. -/
def UCorrection.getCorrection
    (uSettings uCorrections : List (String × List (String × ℚ)))
    (X : String → ℚ) (e : Entry) : Except PyErr ℚ :=
  if e.runType.getD "GGA" = "HF" then .error (.compat "Invalid run type")
  else
    let calcU := e.hubbards.getD []
    let els := ((e.composition.filter (fun p => 0 < p.2)).map
      Prod.fst).insertionSort (fun a b => X a ≤ X b)
    match els.getLast? with
    | none => .error .index
    | some mel =>
      let ucorr := (uCorrections.lookup mel).getD []
      let usett := (uSettings.lookup mel).getD []
      ucorrLoop calcU ucorr usett e.composition 0

/-- One bound correction of a Compatibility scheme: its display name
str(c) paired with its get_correction method. -/
abbrev Rule := String × (Entry → Except PyErr ℚ)

/-- corrections[k] = v on a Python dict modelled as an association list:
overwrite the binding in place when the key is present, append otherwise. -/
def dictInsert : List (String × ℚ) → String → ℚ → List (String × ℚ)
  | [], k, v => [(k, v)]
  | p :: ps, k, v =>
    if p.1 = k then (k, v) :: ps else p :: dictInsert ps k v

/-- The loop of Compatibility.get_corrections_dict, carrying the
corrections dict accumulated so far; each rule is evaluated against the
same entry, which no get_correction body modifies. -/
def getCorrectionsDictAux (e : Entry) :
    List Rule → List (String × ℚ) → Except PyErr (List (String × ℚ))
  | [], d => .ok d
  | r :: rest, d =>
    match r.2 e with
    | .error err => .error err
    | .ok v =>
      getCorrectionsDictAux e rest (if v = 0 then d else dictInsert d r.1 v)

/-- Compatibility.get_corrections_dict. -/
def getCorrectionsDict (rules : List Rule) (e : Entry) :
    Except PyErr (List (String × ℚ)) :=
  getCorrectionsDictAux e rules []

/-- Compatibility.process_entry.  The first component of the result pair
is the returned value (none is the None sentinel), the second is the
state of the entry after the call: unchanged when a CompatibilityError
was caught, the correction field overwritten with the summed dict values
otherwise.  Any other exception propagates. -/
def processEntry (rules : List Rule) (e : Entry) :
    Except PyErr (Option Entry × Entry) :=
  match getCorrectionsDict rules e with
  | .error (.compat _) => .ok (none, e)
  | .error err => .error err
  | .ok d =>
    let e2 := { e with correction := (d.map Prod.snd).sum }
    .ok (some e2, e2)

/-- The value every bound rule returns for the entry, in rule order;
errors out at the first raising rule. -/
def ruleValues (e : Entry) : List Rule → Except PyErr (List ℚ)
  | [] => .ok []
  | r :: rs =>
    match r.2 e with
    | .error err => .error err
    | .ok v =>
      match ruleValues e rs with
      | .error err => .error err
      | .ok vs => .ok (v :: vs)

/-- The name-value pairs get_corrections_dict keeps: one per rule, in
order, skipping zero values. -/
def nzPairs : List Rule → List ℚ → List (String × ℚ)
  | r :: rs, v :: vs =>
    if v = 0 then nzPairs rs vs else (r.1, v) :: nzPairs rs vs
  | _, _ => []

/-- The map step of Compatibility.process_entries: the values returned by
process_entry on each entry in order, propagating any uncaught
exception. -/
def processEntriesAux (rules : List Rule) :
    List Entry → Except PyErr (List (Option Entry))
  | [] => .ok []
  | e :: es =>
    match processEntry rules e with
    | .error err => .error err
    | .ok pr =>
      match processEntriesAux rules es with
      | .error err => .error err
      | .ok rest => .ok (pr.1 :: rest)

/-- Compatibility.process_entries: filter(None, map(process_entry,
entries)). -/
def processEntries (rules : List Rule) (es : List Entry) :
    Except PyErr (List Entry) :=
  (processEntriesAux rules es).map (List.filterMap id)

/-- Two successive get_corrections_dict calls on the same entry; the
second call receives the same entry because get_corrections_dict assigns
to no entry field. -/
def callBreakdownTwice (rules : List Rule) (e : Entry) :
    Except PyErr ((List (String × ℚ)) × (List (String × ℚ))) :=
  match getCorrectionsDict rules e with
  | .error err => .error err
  | .ok d1 =>
    match getCorrectionsDict rules e with
    | .error err => .error err
    | .ok d2 => .ok (d1, d2)

/-- Looking up a key that no pair of the list carries yields none. -/
theorem lookup_eq_none_of_forall {l : List (String × ℚ)} {k : String}
    (h : ∀ p ∈ l, ¬ p.1 = k) : List.lookup k l = none := by
  induction l with
  | nil => rfl
  | cons p ps ih =>
    have hk : (k == p.1) = false := by
      simp only [beq_eq_false_iff_ne, ne_eq]
      intro hkp
      exact h p (List.mem_cons_self p ps) hkp.symm
    simpa [List.lookup, hk] using ih fun q hq => h q (List.mem_cons_of_mem p hq)

/-- Inserting a fresh key into the dict appends the binding. -/
theorem dictInsert_of_forall_ne {d : List (String × ℚ)} {k : String} {v : ℚ}
    (h : ∀ p ∈ d, ¬ p.1 = k) : dictInsert d k v = d ++ [(k, v)] := by
  induction d with
  | nil => rfl
  | cons p ps ih =>
    have hp : ¬ p.1 = k := h p (List.mem_cons_self p ps)
    simpa [dictInsert, hp] using ih fun q hq => h q (List.mem_cons_of_mem p hq)

/-- Every key of dictInsert d k v is a key of d or is k. -/
theorem mem_fst_dictInsert {d : List (String × ℚ)} {k k' : String} {v : ℚ}
    (h : k' ∈ (dictInsert d k v).map Prod.fst) :
    k' ∈ d.map Prod.fst ∨ k' = k := by
  induction d with
  | nil => simpa [dictInsert] using h
  | cons p ps ih =>
    by_cases hp : p.1 = k
    · simp only [dictInsert, if_pos hp, List.map_cons, List.mem_cons] at h
      rcases h with h | h
      · exact Or.inr h
      · exact Or.inl (by rw [List.map_cons]; exact List.mem_cons_of_mem _ h)
    · simp only [dictInsert, if_neg hp, List.map_cons, List.mem_cons] at h
      rcases h with h | h
      · exact Or.inl (by rw [List.map_cons]; exact List.mem_cons.mpr (Or.inl h))
      · rcases ih h with h2 | h2
        · exact Or.inl (by rw [List.map_cons]; exact List.mem_cons_of_mem _ h2)
        · exact Or.inr h2

/-- Looking up a key appended behind pairs that all avoid it. -/
theorem lookup_append_of_forall_ne {d : List (String × ℚ)} {k : String}
    {v : ℚ} (h : ∀ p ∈ d, ¬ p.1 = k) :
    List.lookup k (d ++ [(k, v)]) = some v := by
  induction d with
  | nil => simp [List.lookup]
  | cons p ps ih =>
    have hk : (k == p.1) = false := by
      simp only [beq_eq_false_iff_ne, ne_eq]
      intro hkp
      exact h p (List.mem_cons_self p ps) hkp.symm
    simpa [List.lookup, hk] using ih fun q hq => h q (List.mem_cons_of_mem p hq)

/-- The get_corrections_dict loop over a concatenated rule list runs the
first part, then the second from the dict the first produced. -/
theorem gccdAux_append (e : Entry) (l1 l2 : List Rule)
    (d : List (String × ℚ)) :
    getCorrectionsDictAux e (l1 ++ l2) d =
      match getCorrectionsDictAux e l1 d with
      | .error err => .error err
      | .ok d1 => getCorrectionsDictAux e l2 d1 := by
  induction l1 generalizing d with
  | nil => simp [getCorrectionsDictAux]
  | cons r rs ih =>
    simp only [List.cons_append, getCorrectionsDictAux]
    cases r.2 e with
    | error err => rfl
    | ok v => exact ih _

/-- Keys of the dict produced by the loop come from the starting dict or
from the rule names. -/
theorem mem_fst_of_gccdAux {e : Entry} {rules : List Rule}
    {d0 d : List (String × ℚ)} (h : getCorrectionsDictAux e rules d0 = .ok d)
    {k : String} (hk : k ∈ d.map Prod.fst) :
    k ∈ d0.map Prod.fst ∨ k ∈ rules.map Prod.fst := by
  induction rules generalizing d0 with
  | nil =>
    simp only [getCorrectionsDictAux] at h
    cases h
    exact Or.inl hk
  | cons r rs ih =>
    simp only [getCorrectionsDictAux] at h
    cases hr : r.2 e with
    | error err => rw [hr] at h; cases h
    | ok v =>
      rw [hr] at h
      rcases ih h with h2 | h2
      · by_cases hv : v = 0
        · rw [if_pos hv] at h2
          exact Or.inl h2
        · rw [if_neg hv] at h2
          rcases mem_fst_dictInsert h2 with h3 | h3
          · exact Or.inl h3
          · exact Or.inr
              (by rw [List.map_cons]; exact List.mem_cons.mpr (Or.inl h3))
      · exact Or.inr (by rw [List.map_cons]; exact List.mem_cons_of_mem _ h2)

/-- When every rule succeeds, has a distinct name, and no name collides
with the starting dict, the loop appends exactly the nonzero name-value
pairs. -/
theorem gccdAux_ok_of_ruleValues {e : Entry} :
    ∀ (rules : List Rule) (vs : List ℚ) (d0 : List (String × ℚ)),
    ruleValues e rules = .ok vs → (rules.map Prod.fst).Nodup →
    (∀ k ∈ rules.map Prod.fst, ∀ p ∈ d0, ¬ p.1 = k) →
    getCorrectionsDictAux e rules d0 = .ok (d0 ++ nzPairs rules vs) := by
  intro rules
  induction rules with
  | nil =>
    intro vs d0 hv _ _
    simp only [ruleValues] at hv
    cases hv
    simp [getCorrectionsDictAux, nzPairs]
  | cons r rs ih =>
    intro vs d0 hv hnd hdisj
    simp only [ruleValues] at hv
    cases hr : r.2 e with
    | error err => rw [hr] at hv; cases hv
    | ok v =>
      rw [hr] at hv
      cases hrest : ruleValues e rs with
      | error err => rw [hrest] at hv; cases hv
      | ok vs' =>
        rw [hrest] at hv
        cases hv
        simp only [List.map_cons, List.nodup_cons] at hnd
        simp only [getCorrectionsDictAux, hr]
        by_cases hv0 : v = 0
        · rw [if_pos hv0]
          have := ih vs' d0 hrest hnd.2 fun k hk p hp =>
            hdisj k (by rw [List.map_cons]; exact List.mem_cons_of_mem _ hk)
              p hp
          rw [this]
          simp [nzPairs, hv0]
        · rw [if_neg hv0]
          have hfresh : ∀ p ∈ d0, ¬ p.1 = r.1 :=
            hdisj r.1 (by rw [List.map_cons]; exact List.mem_cons_self _ _)
          rw [dictInsert_of_forall_ne hfresh]
          have hdisj2 : ∀ k ∈ rs.map Prod.fst, ∀ p ∈ d0 ++ [(r.1, v)],
              ¬ p.1 = k := by
            intro k hk p hp
            rcases List.mem_append.mp hp with hp2 | hp2
            · exact hdisj k
                (by rw [List.map_cons]; exact List.mem_cons_of_mem _ hk) p hp2
            · simp only [List.mem_singleton] at hp2
              subst hp2
              intro hcontra
              exact hnd.1 (hcontra ▸ hk)
          have := ih vs' (d0 ++ [(r.1, v)]) hrest hnd.2 hdisj2
          rw [this]
          simp [nzPairs, hv0, List.append_assoc]

/-- The nonzero pairs kept by the dict sum to the full per-rule sum. -/
theorem nzPairs_sum :
    ∀ (rules : List Rule) (vs : List ℚ), rules.length = vs.length →
    ((nzPairs rules vs).map Prod.snd).sum = vs.sum := by
  intro rules
  induction rules with
  | nil =>
    intro vs hl
    cases vs with
    | nil => simp [nzPairs]
    | cons v vs' => simp at hl
  | cons r rs ih =>
    intro vs hl
    cases vs with
    | nil => simp at hl
    | cons v vs' =>
      simp only [List.length_cons, Nat.succ.injEq] at hl
      by_cases hv : v = 0
      · simp [nzPairs, hv, ih vs' hl]
      · simp [nzPairs, hv, ih vs' hl]

/-- ruleValues returns one value per rule. -/
theorem ruleValues_length {e : Entry} :
    ∀ {rules : List Rule} {vs : List ℚ}, ruleValues e rules = .ok vs →
    rules.length = vs.length := by
  intro rules
  induction rules with
  | nil =>
    intro vs hv
    simp only [ruleValues] at hv
    cases hv
    rfl
  | cons r rs ih =>
    intro vs hv
    simp only [ruleValues] at hv
    cases hr : r.2 e with
    | error err => rw [hr] at hv; cases hv
    | ok v =>
      rw [hr] at hv
      cases hrest : ruleValues e rs with
      | error err => rw [hrest] at hv; cases hv
      | ok vs' =>
        rw [hrest] at hv
        cases hv
        simpa using ih hrest

/-- The U-check loop with an empty correction sub-table returns its
accumulator when every element passes the settings check. -/
theorem ucorrLoop_ok_of_match {calcU usett : List (String × ℚ)} :
    ∀ (comps : List (String × ℚ)) (acc : ℚ),
    (∀ p ∈ comps, (calcU.lookup p.1).getD 0 = (usett.lookup p.1).getD 0) →
    ucorrLoop calcU [] usett comps acc = .ok acc := by
  intro comps
  induction comps with
  | nil => intro acc _; rfl
  | cons p ps ih =>
    intro acc h
    have hp := h p (List.mem_cons_self p ps)
    simp only [ucorrLoop, hp, not_true_eq_false, if_false, List.lookup]
    exact ih acc fun q hq => h q (List.mem_cons_of_mem p hq)

/-- The map step of process_entries returns, in order, exactly the value
process_entry returns for each entry. -/
theorem processEntriesAux_ok {rules : List Rule} :
    ∀ {es : List Entry} {rs : List (Option Entry)},
    processEntriesAux rules es = .ok rs →
    rs = es.map fun e =>
      match processEntry rules e with
      | .ok pr => pr.1
      | .error _ => none := by
  intro es
  induction es with
  | nil =>
    intro rs h
    simp only [processEntriesAux] at h
    cases h
    rfl
  | cons e es ih =>
    intro rs h
    simp only [processEntriesAux] at h
    cases hpe : processEntry rules e with
    | error err => rw [hpe] at h; cases h
    | ok pr =>
      rw [hpe] at h
      cases haux : processEntriesAux rules es with
      | error err => rw [haux] at h; cases h
      | ok rest =>
        rw [haux] at h
        cases h
        simp [List.map_cons, hpe, ih haux]

attribute [local semireducible] Rat.mul Rat.inv Rat.add Rat.sub

/-- A GGA-run Fe2O3 entry that nevertheless declares a nonzero hubbard U
for Fe, as a GGA+U calculation would. -/
def eC1 : Entry :=
  ⟨[("Fe", 2), ("O", 3)], "Fe2O3", 0, 0, some "GGA", some [("Fe", 53 / 10)],
   none, none, false, "", 0⟩

/-- C1 counterexample: in "GGA" mode (empty expected U settings and empty
U correction tables) an entry whose declared run type is GGA, not
Hartree-Fock, but whose declared hubbards carry a nonzero U on an element
of the composition makes UCorrection.get_correction raise
CompatibilityError, so the mode does not return 0 regardless of the
declared hubbards values. -/
theorem C1_counterexample_gga_raises_on_nonzero_u :
    UCorrection.getCorrection [] [] (fun _ => 0) eC1 =
      .error (.compat "Invalid U value on Fe") := rfl

/-- C1 (amended): HubbardUCorrection in "GGA" mode, on any entry with at
least one positive-amount element, raises IncompatibilityError when the
declared run type is the disallowed Hartree-Fock type; when the run type
is not Hartree-Fock it returns 0 and never raises, provided every element
of the composition has declared hubbard U equal to zero (in particular
whenever no hubbards are declared). -/
theorem C1_gga_mode_spec (X : String → ℚ) (e : Entry)
    (hne : e.composition.filter (fun p => 0 < p.2) ≠ []) :
    (e.runType.getD "GGA" = "HF" →
      UCorrection.getCorrection [] [] X e =
        .error (.compat "Invalid run type")) ∧
    (¬ e.runType.getD "GGA" = "HF" →
      (∀ p ∈ e.composition, ((e.hubbards.getD []).lookup p.1).getD 0 = 0) →
      UCorrection.getCorrection [] [] X e = .ok 0) := by
  constructor
  · intro hrt
    simp [UCorrection.getCorrection, hrt]
  · intro hrt hz
    unfold UCorrection.getCorrection
    rw [if_neg hrt]
    have hlen : (((e.composition.filter (fun p => 0 < p.2)).map
        Prod.fst).insertionSort (fun a b => X a ≤ X b)) ≠ [] := by
      intro hnil
      have := List.length_insertionSort (fun a b => X a ≤ X b)
        ((e.composition.filter (fun p => 0 < p.2)).map Prod.fst)
      rw [hnil] at this
      have hmap : (e.composition.filter (fun p => 0 < p.2)).map Prod.fst
          = [] := List.length_eq_zero.mp this.symm
      exact hne (List.map_eq_nil_iff.mp hmap)
    obtain ⟨mel, hl⟩ := Option.ne_none_iff_exists'.mp
      (fun hnone => hlen (List.getLast?_eq_none_iff.mp hnone))
    simp only []
    rw [hl]
    exact ucorrLoop_ok_of_match e.composition 0 fun p hp => by
      simpa [List.lookup] using hz p hp

/-- C1 witness: a GGA-run Fe2O3 entry with no declared hubbards gets
correction 0 in "GGA" mode. -/
theorem C1_gga_mode_spec_witness :
    UCorrection.getCorrection [] [] (fun _ => 0)
      ⟨[("Fe", 2), ("O", 3)], "Fe2O3", 0, 0, none, none, none, none,
       false, "", 0⟩ = .ok 0 :=
  (C1_gga_mode_spec (fun _ => 0)
    ⟨[("Fe", 2), ("O", 3)], "Fe2O3", 0, 0, none, none, none, none,
     false, "", 0⟩ (by decide)).2 (by decide) (by decide)

/-- A water entry with zero uncorrected energy and zero prior
correction. -/
def eC2 : Entry :=
  ⟨[("H", 2), ("O", 1)], "H2O", 0, 0, none, none, none, none, false,
   "", 0⟩

/-- The chain of claim C2: a gas-phase correction whose compound table
holds H2O at 1 eV/atom, followed by an aqueous correction whose table
holds H2O at 2 eV/atom. -/
def rulesC2 : List Rule :=
  [("MIT Gas Correction",
    GasCorrection.getCorrection ⟨[("H2O", 1)], [("oxide", 0)]⟩ true),
   ("MIT Aqueous Correction", AqueousCorrection.getCorrection [("H2O", 2)])]

/-- C2 counterexample: with the chain rulesC2 on the water entry eC2, the
gas rule computes 1 * 3 - 0 = 3, and the aqueous rule then computes
2 * 3 - 0 - 0 = 6, subtracting only the entry correction field (0), not
the correction already computed by the prior rule of the chain; the value
the claim predicts, 2 * 3 - 0 - (0 + 3) = 3, differs. -/
theorem C2_counterexample_aqueous_ignores_prior_rules :
    getCorrectionsDict rulesC2 eC2 =
      .ok [("MIT Gas Correction", 3), ("MIT Aqueous Correction", 6)] ∧
    ¬ (6 : ℚ) = 2 * numAtoms eC2 - eC2.uncorrectedEnergy -
      (eC2.correction + 3) := ⟨rfl, by decide⟩

/-- C2 (amended): for every entry of reduced formula H2 or H2O present
in the aqueous table, in every chain that runs AqueousCorrection after
any prior rules, the aqueous value recorded in the breakdown equals
reference_energy * atom_count - uncorrected_energy - the correction field
the entry carried when the call began, plus, for H2 only, the fixed
hydration term; corrections computed by earlier rules of the same call
are not subtracted, because get_corrections_dict evaluates every rule
against the unchanged entry. -/
theorem C2_aqueous_net_of_entry_correction_field
    (aq : List (String × ℚ)) (pre : List Rule) (nm : String) (e : Entry)
    (d : List (String × ℚ)) (ref : ℚ)
    (hnm : nm ∉ pre.map Prod.fst)
    (hr : e.reducedFormula = "H2" ∨ e.reducedFormula = "H2O")
    (ha : aq.lookup e.reducedFormula = some ref)
    (hd : getCorrectionsDict
      (pre ++ [(nm, AqueousCorrection.getCorrection aq)]) e = .ok d) :
    (List.lookup nm d).getD 0 =
      ref * numAtoms e - e.uncorrectedEnergy - e.correction +
        (if e.reducedFormula = "H2O" then 0
         else (1 / 2 : ℚ) * (246 / 100) *
           min (compAmt e "H" / 2) (compAmt e "O")) := by
  rw [getCorrectionsDict,
    gccdAux_append e pre [(nm, AqueousCorrection.getCorrection aq)] []] at hd
  cases h1 : getCorrectionsDictAux e pre [] with
  | error err => rw [h1] at hd; cases hd
  | ok d1 =>
    rw [h1] at hd
    have hv : AqueousCorrection.getCorrection aq e =
        .ok (ref * numAtoms e - e.uncorrectedEnergy - e.correction +
          (if e.reducedFormula = "H2O" then 0
           else (1 / 2 : ℚ) * (246 / 100) *
             min (compAmt e "H" / 2) (compAmt e "O"))) := by
      rcases hr with hr | hr <;>
        simp [AqueousCorrection.getCorrection, aqueousBase, hr,
          hr ▸ ha]
    set v := ref * numAtoms e - e.uncorrectedEnergy - e.correction +
      (if e.reducedFormula = "H2O" then 0
       else (1 / 2 : ℚ) * (246 / 100) *
         min (compAmt e "H" / 2) (compAmt e "O")) with hvdef
    simp only [getCorrectionsDictAux, hv] at hd
    have hd1nm : ∀ p ∈ d1, ¬ p.1 = nm := by
      intro p hp hcontra
      have hpm : p.1 ∈ d1.map Prod.fst := List.mem_map.mpr ⟨p, hp, rfl⟩
      rcases mem_fst_of_gccdAux h1 hpm with h2 | h2
      · exact absurd h2 (List.not_mem_nil _)
      · exact hnm (hcontra ▸ h2)
    by_cases hz : v = 0
    · rw [if_pos hz] at hd
      cases hd
      rw [lookup_eq_none_of_forall hd1nm]
      simpa using hz.symm
    · rw [if_neg hz] at hd
      cases hd
      rw [dictInsert_of_forall_ne hd1nm, lookup_append_of_forall_ne hd1nm]
      rfl

/-- An elemental hydrogen entry with zero uncorrected energy and zero
prior correction. -/
def eH2 : Entry :=
  ⟨[("H", 2)], "H2", 0, 0, none, none, none, none, false, "", 0⟩

/-- C2 witness: with a constant prior rule of value 5 before the aqueous
rule, the H2 entry aqueous breakdown value is 3 * 2 - 0 - 0 plus its
hydration term 0.5 * 2.46 * min(1, 0) = 0, i.e. 6, net of the entry
correction field only. -/
theorem C2_aqueous_net_witness :
    (List.lookup "MIT Aqueous Correction"
      [("Prior", (5 : ℚ)), ("MIT Aqueous Correction", 6)]).getD 0 =
      3 * numAtoms eH2 - eH2.uncorrectedEnergy - eH2.correction +
        (if eH2.reducedFormula = "H2O" then 0
         else (1 / 2 : ℚ) * (246 / 100) *
           min (compAmt eH2 "H" / 2) (compAmt eH2 "O")) :=
  C2_aqueous_net_of_entry_correction_field [("H2", 3)]
    [("Prior", fun _ => .ok 5)] "MIT Aqueous Correction" eH2
    [("Prior", 5), ("MIT Aqueous Correction", 6)] 3 (by decide)
    (Or.inl rfl) rfl rfl

/-- C3: with distinctly named bound corrections, process_entry returns
the None sentinel and leaves the correction field of the entry unchanged
whenever evaluating the corrections raises CompatibilityError, and
otherwise overwrites the correction field with the sum of the per-rule
correction values and returns the mutated entry. -/
theorem C3_process_entry_spec (rules : List Rule) (e : Entry)
    (hnd : (rules.map Prod.fst).Nodup) :
    (∀ m, getCorrectionsDict rules e = .error (.compat m) →
      processEntry rules e = .ok (none, e)) ∧
    (∀ vs, ruleValues e rules = .ok vs →
      processEntry rules e =
        .ok (some { e with correction := vs.sum },
          { e with correction := vs.sum })) := by
  constructor
  · intro m hm
    simp [processEntry, hm]
  · intro vs hv
    have hd := gccdAux_ok_of_ruleValues rules vs [] hv hnd
      fun k _ p hp => absurd hp (List.not_mem_nil p)
    have hgd : getCorrectionsDict rules e = .ok (nzPairs rules vs) := by
      simpa [getCorrectionsDict] using hd
    simp only [processEntry, hgd]
    rw [nzPairs_sum rules vs (ruleValues_length hv)]

/-- C3 witness: two rules returning 2 and 0 set the correction field to
their sum 2 and return the mutated entry. -/
theorem C3_process_entry_spec_witness :
    processEntry [("A", fun _ => .ok 2), ("B", fun _ => .ok 0)] eC2 =
      .ok (some { eC2 with correction := ([(2 : ℚ), 0]).sum },
        { eC2 with correction := ([(2 : ℚ), 0]).sum }) :=
  (C3_process_entry_spec [("A", fun _ => .ok 2), ("B", fun _ => .ok 0)]
    eC2 (by decide)).2 [2, 0] rfl

/-- The oxide-bearing hydroxide entry of claim C4. -/
def eC4 : Entry :=
  ⟨[("Fe", 1), ("O", 1), ("H", 1)], "FeHO", 0, 0, none, none, none,
   some "hydroxide", false, "", 0⟩

/-- C4 counterexample: when the configuration table itself carries a
"hydroxide" rate (here 1, with an "oxide" rate of 1), an entry whose
auxiliary data classifies it as hydroxide receives both additions,
1 * 1 + 1 * 1 = 2, not the plain oxide rate times the oxygen count,
1 * 1 = 1, refuting the claim for that configuration table. -/
theorem C4_counterexample_hydroxide_double_correction :
    GasCorrection.getCorrection ⟨[], [("oxide", 1), ("hydroxide", 1)]⟩
      true eC4 = .ok 2 ∧
    ¬ (2 : ℚ) = 1 * compAmt eC4 "O" := ⟨rfl, by decide⟩

/-- C4 (amended): for every entry with unmatched reduced formula, oxygen
alongside at least one other element, and a precomputed "hydroxide"
classification, GasCorrection with peroxide correction enabled returns
exactly the plain "oxide" rate times the oxygen atom count, for every
configuration table whose oxide-correction table has no "hydroxide" key;
when the table does carry a "hydroxide" key its rate is added on top. -/
theorem C4_hydroxide_maps_to_oxide_rate (cpd oxtab : List (String × ℚ))
    (e : Entry) (r : ℚ)
    (h1 : cpd.lookup e.reducedFormula = none)
    (h2 : 2 ≤ e.composition.length)
    (h3 : "O" ∈ e.composition.map Prod.fst)
    (h4 : e.oxideType = some "hydroxide")
    (h5 : oxtab.lookup "hydroxide" = none)
    (h6 : oxtab.lookup "oxide" = some r) :
    GasCorrection.getCorrection ⟨cpd, oxtab⟩ true e =
      .ok (r * compAmt e "O") := by
  simp [GasCorrection.getCorrection, h1, h2, h3, h4, h5, h6]

/-- C4 witness: with only an "oxide" rate of 3 configured, the hydroxide
entry eC4 receives 3 times its single oxygen atom. -/
theorem C4_hydroxide_witness :
    GasCorrection.getCorrection ⟨[("X", 5)], [("oxide", 3)]⟩ true eC4 =
      .ok (3 * compAmt eC4 "O") :=
  C4_hydroxide_maps_to_oxide_rate [("X", 5)] [("oxide", 3)] eC4 3 rfl
    (by decide) (by decide) rfl rfl rfl

/-- C5: PotcarCorrection returns 0 when every extracted pseudopotential
identifier is among the expected ones, raises CompatibilityError when
some identifier is not, and raises ValueError, which is not a
CompatibilityError, when the entry parameters lack the potcar_symbols
key. -/
theorem C5_potcar_gate_spec (valid : List String) (e : Entry) :
    (e.potcarSymbols = none →
      PotcarCorrection.getCorrection valid e = .error .value) ∧
    (∀ syms psp, e.potcarSymbols = some syms → extractPsp syms = some psp →
      ((∀ p ∈ psp, p ∈ valid) →
        PotcarCorrection.getCorrection valid e = .ok 0) ∧
      (¬ (∀ p ∈ psp, p ∈ valid) →
        PotcarCorrection.getCorrection valid e =
          .error (.compat "Incompatible potcar"))) ∧
    PyErr.value.isCompat = false := by
  refine ⟨?_, ?_, rfl⟩
  · intro h
    simp [PotcarCorrection.getCorrection, h]
  · intro syms psp hs hp
    constructor
    · intro hsub
      simp only [PotcarCorrection.getCorrection, hs, hp]
      exact if_pos hsub
    · intro hsub
      simp only [PotcarCorrection.getCorrection, hs, hp]
      exact if_neg hsub

/-- C5 witness: a well-formed Fe2O3 potcar symbol list against the
expected identifiers Fe_pv and O passes the gate with correction 0. -/
theorem C5_potcar_gate_witness :
    PotcarCorrection.getCorrection ["Fe_pv", "O"]
      ⟨[], "", 0, 0, none, none,
       some ["PAW_PBE Fe_pv 06Sep2000", "PAW_PBE O 08Apr2002"], none,
       false, "", 0⟩ = .ok 0 :=
  ((C5_potcar_gate_spec ["Fe_pv", "O"]
    ⟨[], "", 0, 0, none, none,
     some ["PAW_PBE Fe_pv 06Sep2000", "PAW_PBE O 08Apr2002"], none,
     false, "", 0⟩).2.1
    ["PAW_PBE Fe_pv 06Sep2000", "PAW_PBE O 08Apr2002"] ["Fe_pv", "O"]
    rfl rfl).1 (by decide)

/-- C6: whenever process_entries returns a result list, that list is the
subsequence of the input consisting exactly of the entries process_entry
does not reject, in input order, each carrying the correction field
process_entry alone would give it, and its length is at most the input
length. -/
theorem C6_process_entries_spec (rules : List Rule) (es : List Entry)
    (out : List Entry) (h : processEntries rules es = .ok out) :
    out = es.filterMap (fun e =>
      match processEntry rules e with
      | .ok pr => pr.1
      | .error _ => none) ∧ out.length ≤ es.length := by
  obtain ⟨rs, hrs, hout⟩ : ∃ rs, processEntriesAux rules es = .ok rs ∧
      out = rs.filterMap id := by
    unfold processEntries at h
    cases haux : processEntriesAux rules es with
    | error err => rw [haux] at h; cases h
    | ok rs =>
      rw [haux] at h
      exact ⟨rs, rfl, by cases h; rfl⟩
  have hmap := processEntriesAux_ok hrs
  subst hmap
  rw [List.filterMap_map] at hout
  subst hout
  constructor
  · rfl
  · exact List.length_filterMap_le _ es

/-- C6 witness: of two entries, the first rejected by a compatibility
check and the second corrected to 1, exactly the second survives. -/
theorem C6_process_entries_witness :
    [{ eC4 with correction := 1 }] =
      [eC2, eC4].filterMap (fun e =>
        match processEntry
          [("A", fun e2 => if e2.reducedFormula = "H2O" then
            .error (.compat "no") else .ok 1)] e with
        | .ok pr => pr.1
        | .error _ => none) ∧
      ([{ eC4 with correction := 1 }] : List Entry).length ≤
        ([eC2, eC4] : List Entry).length :=
  C6_process_entries_spec
    [("A", fun e2 => if e2.reducedFormula = "H2O" then
      .error (.compat "no") else .ok 1)]
    [eC2, eC4] [{ eC4 with correction := 1 }] rfl

/-- C7: for every entry with unmatched reduced formula whose composition
carries no oxygen, GasCorrection returns 0, with peroxide correction
enabled or disabled, for any configuration whose oxide table has an
"oxide" rate as valid configurations must. -/
theorem C7_gas_no_oxygen_zero (cpd oxtab : List (String × ℚ)) (e : Entry)
    (r : ℚ) (h1 : cpd.lookup e.reducedFormula = none)
    (h2 : ∀ p ∈ e.composition, ¬ p.1 = "O")
    (h3 : oxtab.lookup "oxide" = some r) :
    GasCorrection.getCorrection ⟨cpd, oxtab⟩ true e = .ok 0 ∧
    GasCorrection.getCorrection ⟨cpd, oxtab⟩ false e = .ok 0 := by
  have hO : "O" ∉ e.composition.map Prod.fst := by
    intro hmem
    rcases List.mem_map.mp hmem with ⟨p, hp, hp2⟩
    exact h2 p hp hp2
  have hamt : compAmt e "O" = 0 := by
    simp [compAmt, lookup_eq_none_of_forall h2]
  constructor
  · simp [GasCorrection.getCorrection, h1, hO]
  · simp [GasCorrection.getCorrection, h1, h3, hamt]

/-- C7 witness: an elemental iron entry gets a zero gas correction under
both settings. -/
theorem C7_gas_no_oxygen_witness :
    GasCorrection.getCorrection ⟨[], [("oxide", 7)]⟩ true
      ⟨[("Fe", 1)], "Fe", 0, 0, none, none, none, none, false, "", 0⟩ =
      .ok 0 ∧
    GasCorrection.getCorrection ⟨[], [("oxide", 7)]⟩ false
      ⟨[("Fe", 1)], "Fe", 0, 0, none, none, none, none, false, "", 0⟩ =
      .ok 0 :=
  C7_gas_no_oxygen_zero [] [("oxide", 7)]
    ⟨[("Fe", 1)], "Fe", 0, 0, none, none, none, none, false, "", 0⟩ 7
    rfl (by decide) rfl

/-- C8: AqueousCorrection returns the base branch alone for entries of
reduced formula H2O, and for every other reduced formula it adds the
fixed hydration term 0.5 * 2.46 * min(H / 2, O) on top of the base
branch. -/
theorem C8_aqueous_hydration_spec (aq : List (String × ℚ)) (e : Entry) :
    (e.reducedFormula = "H2O" →
      AqueousCorrection.getCorrection aq e = .ok (aqueousBase aq e)) ∧
    (¬ e.reducedFormula = "H2O" →
      AqueousCorrection.getCorrection aq e =
        .ok (aqueousBase aq e + (1 / 2 : ℚ) * (246 / 100) *
          min (compAmt e "H" / 2) (compAmt e "O"))) := by
  constructor <;> intro h <;> simp [AqueousCorrection.getCorrection, h]

/-- C8 witness: a non-water entry with two hydrogens and two oxygens
gains the hydration term 0.5 * 2.46 * min(1, 2) = 1.23 on top of a zero
base. -/
theorem C8_aqueous_hydration_witness :
    AqueousCorrection.getCorrection []
      ⟨[("Fe", 1), ("H", 2), ("O", 2)], "FeH2O2", 0, 0, none, none, none,
       none, false, "", 0⟩ =
      .ok (aqueousBase []
        ⟨[("Fe", 1), ("H", 2), ("O", 2)], "FeH2O2", 0, 0, none, none,
         none, none, false, "", 0⟩ + (1 / 2 : ℚ) * (246 / 100) *
        min (compAmt ⟨[("Fe", 1), ("H", 2), ("O", 2)], "FeH2O2", 0, 0,
          none, none, none, none, false, "", 0⟩ "H" / 2)
          (compAmt ⟨[("Fe", 1), ("H", 2), ("O", 2)], "FeH2O2", 0, 0,
            none, none, none, none, false, "", 0⟩ "O")) :=
  (C8_aqueous_hydration_spec []
    ⟨[("Fe", 1), ("H", 2), ("O", 2)], "FeH2O2", 0, 0, none, none, none,
     none, false, "", 0⟩).2 (by decide)

/-- C9: two successive get_corrections_dict calls on the same untouched
entry yield identical breakdown mappings: no get_correction body assigns
to any entry field and the configuration tables are read-only, so the
inspector is deterministic in the entry and configuration. -/
theorem C9_breakdown_idempotent (rules : List Rule) (e : Entry)
    (d1 d2 : List (String × ℚ))
    (h : callBreakdownTwice rules e = .ok (d1, d2)) : d1 = d2 := by
  unfold callBreakdownTwice at h
  cases hg : getCorrectionsDict rules e with
  | error err => rw [hg] at h; cases h
  | ok d =>
    rw [hg] at h
    simp only [Except.ok.injEq, Prod.mk.injEq] at h
    exact h.1.symm.trans h.2

/-- C9 witness: a one-rule chain of constant value 1 produces the same
breakdown on both calls. -/
theorem C9_breakdown_idempotent_witness :
    ([("A", (1 : ℚ))] : List (String × ℚ)) = [("A", 1)] :=
  C9_breakdown_idempotent [("A", fun _ => .ok 1)] eC2 [("A", 1)]
    [("A", 1)] rfl

/-- C10: an entry whose potcar_symbols list carries an identifier with no
space character makes PotcarCorrection raise the IndexError of the
unconditional second-token split, an error that is neither a
CompatibilityError nor the ValueError of the missing-key case. -/
theorem C10_potcar_symbol_without_space_index_error :
    PotcarCorrection.getCorrection ["Fe_pv"]
      ⟨[], "", 0, 0, none, none,
       some ["PAW_PBE Fe_pv 06Sep2000", "PAW_PBE"], none, false, "", 0⟩ =
      .error .index ∧
    PyErr.index.isCompat = false ∧ ¬ PyErr.index = PyErr.value :=
  ⟨rfl, rfl, by decide⟩

end Compat
